import Mathlib

/-!
Verification of the `module-rs` merge library against its specification.

This file shallowly embeds the Rust sources of the `module` crate (the merge
trait, its error model, the policy wrapper types, the built-in `Merge`
implementations, the `MergeCell` accumulator) and of the `module-util` crate
(the `File` module-import evaluator), and proves the specified properties
about those embeddings.

Conventions of the embedding:

* `merge_ref(&mut self, other) -> Result<(), Error>` is modelled as a pure
  function `self → other → Except Error self`: the returned value is the
  state `self` is left in on success.  The consuming `merge` is modelled the
  same way; the source's default implementation of `merge` is exactly
  `merge_ref` followed by returning `self`, which is the identity under this
  modelling.
* Rust `isize` priorities are modelled as `Int` (no claim depends on the
  word size), `String` keys stand for keys with a `Display` instance, and
  file-system paths are `String`s that are taken to be already canonical
  (`fs::canonicalize` is the identity here and import paths are already
  resolved; no claim depends on the path arithmetic itself).
* The backtraces of `Error` are `LinkedList`s of boxed `Display` values in
  the source, with `push`/`add` being `push_front` and iteration running
  front-to-back (most recently pushed first).  They are modelled as
  `List String` kept in iteration order, so pushing is `List.cons`.  The
  innermost (first-pushed) component of a trace is therefore the *last*
  element of the list.
* Fallible file-system/parse access (`Format::read`) is a function
  `String → Option (Module α)`, `none` standing for any I/O or parse
  failure (which the adapters surface as an `ErrorKind::Custom` error).
* The file evaluator's recursion is fuelled: `none` means the fuel ran out
  (the Rust recursion is bounded by the finite file system, which the fuel
  theorems recover via a finite closed domain).
-/

namespace ModuleRs

/-- Decidable equality for merge results, so concrete runs can be settled
by `decide`. -/
instance {ε α : Type} [DecidableEq ε] [DecidableEq α] : DecidableEq (Except ε α) :=
  fun x y =>
    match x, y with
    | .ok a, .ok b =>
      if h : a = b then .isTrue (h ▸ rfl) else .isFalse (fun hh => h (Except.ok.inj hh))
    | .error e, .error f =>
      if h : e = f then .isTrue (h ▸ rfl) else .isFalse (fun hh => h (Except.error.inj hh))
    | .ok _, .error _ => .isFalse (fun hh => Except.noConfusion hh)
    | .error _, .ok _ => .isFalse (fun hh => Except.noConfusion hh)

/-! ## Error model (`module/src/merge/error.rs`) -/

/-- Kind of merge/evaluation error.  `Custom` carries a boxed `Display`
value in the source; a `String` message stands for it here. -/
inductive ErrorKind where
  | collision
  | cycle
  | custom (msg : String)
deriving DecidableEq, Repr

/-- The merge error: a kind plus the module backtrace and the value
(field-path) backtrace, each in iteration order (most recently pushed
first; the innermost component is the last element). -/
structure Error where
  kind : ErrorKind
  modules : List String
  value : List String
deriving DecidableEq, Repr

/-- `Error::collision()`. -/
def Error.collision : Error := ⟨.collision, [], []⟩

/-- `Error::cycle()`. -/
def Error.cycle : Error := ⟨.cycle, [], []⟩

/-- `Error::custom(msg)`. -/
def Error.custom (msg : String) : Error := ⟨.custom msg, [], []⟩

/-- `error.value.push(c)` (a `push_front` on the trace list). -/
def Error.pushValue (e : Error) (c : String) : Error :=
  { e with value := c :: e.value }

/-- `error.modules.push(m)` (a `push_front` on the trace list). -/
def Error.pushModule (e : Error) (m : String) : Error :=
  { e with modules := m :: e.modules }

/-- `Context::with_value` on a `Result`: annotate the error (if any) with a
value-path component. -/
def withValue (r : Except Error γ) (c : String) : Except Error γ :=
  match r with
  | .ok x => .ok x
  | .error e => .error (e.pushValue c)

/-- `Context::with_module` on a `Result`: annotate the error (if any) with a
module identifier. -/
def withModule (r : Except Error γ) (m : String) : Except Error γ :=
  match r with
  | .ok x => .ok x
  | .error e => .error (e.pushModule m)

/-! ## `Overridable` (`module/src/types/overridable.rs`) -/

/-- `Ord::cmp` for the integer priorities. -/
def icmp (a b : Int) : Ordering :=
  if a < b then .lt else if a = b then .eq else .gt

/-- `Overridable<T>`: a value together with its priority (the `DEFAULT`
const parameter only chooses the priority of `new`, which no claim uses). -/
structure Overridable (α : Type) where
  value : α
  priority : Int
deriving DecidableEq, Repr

/-- `Overridable::merge_ref`: strictly lower priority wins, ties collide. -/
def Overridable.mergeRef (a b : Overridable α) : Except Error (Overridable α) :=
  match icmp a.priority b.priority with
  | .lt => .ok a
  | .gt => .ok b
  | .eq => .error Error.collision

/-- `Overridable`'s consuming `merge` (the trait's default impl). -/
def Overridable.merge (a b : Overridable α) : Except Error (Overridable α) :=
  Overridable.mergeRef a b

/-! ## `First`, `Last`, `NoMerge`, `Lines`, `Ordered`
(`module/src/types/*.rs`) -/

/-- `First<T>`: thin wrapper. -/
structure First (α : Type) where
  val : α
deriving DecidableEq, Repr

/-- `First::merge_ref`: keep `self`, never fails. -/
def First.mergeRef (a _b : First α) : Except Error (First α) := .ok a

/-- `First`'s consuming `merge` (default impl). -/
def First.merge (a b : First α) : Except Error (First α) := First.mergeRef a b

/-- `Last<T>`: thin wrapper. -/
structure Last (α : Type) where
  val : α
deriving DecidableEq, Repr

/-- `Last::merge_ref`: adopt `other`, never fails. -/
def Last.mergeRef (_a b : Last α) : Except Error (Last α) := .ok b

/-- `Last`'s consuming `merge` (default impl). -/
def Last.merge (a b : Last α) : Except Error (Last α) := Last.mergeRef a b

/-- `NoMerge<T>`: thin wrapper. -/
structure NoMerge (α : Type) where
  val : α
deriving DecidableEq, Repr

/-- `NoMerge::merge` (explicitly implemented): unconditional collision. -/
def NoMerge.merge (_a _b : NoMerge α) : Except Error (NoMerge α) :=
  .error Error.collision

/-- `NoMerge::merge_ref` (explicitly implemented): unconditional collision. -/
def NoMerge.mergeRef (_a _b : NoMerge α) : Except Error (NoMerge α) :=
  .error Error.collision

/-- `Lines`: a wrapped string. -/
structure Lines where
  content : String
deriving DecidableEq, Repr

/-- `Lines::merge_ref`: push a `'\n'` separator unless `self` already ends
with one, then append `other`'s content. -/
def Lines.mergeRef (a b : Lines) : Except Error Lines :=
  let c := if ¬ a.content.endsWith "\n" then a.content.push '\n' else a.content
  .ok ⟨c ++ b.content⟩

/-- `Lines`'s consuming `merge` (default impl). -/
def Lines.merge (a b : Lines) : Except Error Lines := Lines.mergeRef a b

/-- `Order` tag of an `Ordered` value. -/
inductive Order where
  | before
  | after
deriving DecidableEq, Repr

/-- `Ordered<T>`: a value with a position tag. -/
structure Ordered (α : Type) where
  value : α
  order : Order
deriving DecidableEq, Repr

/-- `Ordered::merge_ref`: if `other` is tagged `Before`, swap the inner
values before delegating to the inner merge. -/
def Ordered.mergeRef (mf : α → α → Except Error α) (a b : Ordered α) :
    Except Error (Ordered α) :=
  let p := if b.order = Order.before then (b.value, a.value) else (a.value, b.value)
  (mf p.1 p.2).map (fun c => ⟨c, a.order⟩)

/-- `Ordered`'s consuming `merge` (default impl). -/
def Ordered.merge (mf : α → α → Except Error α) (a b : Ordered α) :
    Except Error (Ordered α) :=
  Ordered.mergeRef mf a b

/-! ## Built-in `Merge` implementations
(`module/src/merge/impls/{core,alloc,std}.rs`) -/

/-- The `unmergeable!` implementations (scalars, strings, paths, times, …):
`merge_ref` unconditionally collides. -/
def scalarMergeRef (_a _b : Int) : Except Error Int := .error Error.collision

/-- `scalar`'s consuming `merge` (default impl). -/
def scalarMerge (a b : Int) : Except Error Int := scalarMergeRef a b

/-- `Merge for ()`, explicit `merge_ref`. -/
def unitMergeRef (_a _b : Unit) : Except Error Unit := .ok ()

/-- `Merge for ()`, explicit `merge`. -/
def unitMerge (_a _b : Unit) : Except Error Unit := .ok ()

/-- `Vec::merge_ref`: `self.append(&mut other)`, i.e. concatenation with
`self`'s elements first; never fails. -/
def vecMergeRef (a b : List α) : Except Error (List α) := .ok (a ++ b)

/-- `Vec`'s consuming `merge` (default impl). -/
def vecMerge (a b : List α) : Except Error (List α) := vecMergeRef a b

/-- `Option::merge_ref`, with the inner type's merge passed explicitly.  The
match arms are in source order: `(Some, Some)` recursively merges, `(_,
None)` keeps `self`, `(None, Some)` adopts `other`. -/
def optionMergeRef (mf : α → α → Except Error α) :
    Option α → Option α → Except Error (Option α)
  | some a, some b => (mf a b).map some
  | x, none => .ok x
  | none, some b => .ok (some b)

/-- `Option`'s consuming `merge` (default impl). -/
def optionMerge (mf : α → α → Except Error α) (a b : Option α) :
    Except Error (Option α) :=
  optionMergeRef mf a b

/-! ## Unique-key mappings (`BTreeMap`/`HashMap::merge_ref`)

Maps are modelled as association lists whose key lists are duplicate-free.
The source iterates over `other`'s entries (key-ascending for `BTreeMap`,
arbitrary for `HashMap` — the list order covers both) and, per entry, either
inserts into a vacant slot or removes the occupied entry, merges the two
values (annotating a failure with the `Display`-quoted key) and re-inserts
the merged value. -/

/-- Key lookup in an association list (`BTreeMap::entry`'s occupancy test). -/
def alookup : List (String × β) → String → Option β
  | [], _ => none
  | (k, v) :: rest, x => if k = x then some v else alookup rest x

/-- Remove a key's entry (`OccupiedEntry::remove_entry`). -/
def aerase : List (String × β) → String → List (String × β)
  | [], _ => []
  | (k, v) :: rest, x => if k = x then aerase rest x else (k, v) :: aerase rest x

/-- Insert an entry for a key known to be absent (`VacantEntry::insert` /
`BTreeMap::insert` after removal).  Position in the list is irrelevant
because maps are only observed through `alookup`. -/
def ainsert (m : List (String × β)) (k : String) (v : β) : List (String × β) :=
  m ++ [(k, v)]

/-- The keys of a map. -/
def akeys (m : List (String × β)) : List String := m.map Prod.fst

/-- How the source renders a key when pushing it onto the value trace:
`format!("\x22{k}\x22")`. -/
def quoteKey (k : String) : String := "\"" ++ k ++ "\""

/-- `BTreeMap::merge_ref` (and `HashMap::merge_ref`): fold `other`'s entries
into `self`, merging the values of shared keys and re-raising a failure with
the quoted key name pushed onto the value trace. -/
def mapMergeRef (mf : β → β → Except Error β) :
    List (String × β) → List (String × β) → Except Error (List (String × β))
  | m, [] => .ok m
  | m, (k, b) :: rest =>
    match alookup m k with
    | none => mapMergeRef mf (ainsert m k b) rest
    | some a =>
      match withValue (mf a b) (quoteKey k) with
      | .error e => .error e
      | .ok c => mapMergeRef mf (ainsert (aerase m k) k c) rest

/-- A map's consuming `merge` (default impl). -/
def mapMerge (mf : β → β → Except Error β)
    (a b : List (String × β)) : Except Error (List (String × β)) :=
  mapMergeRef mf a b

/-! ## `MergeCell` (`module/src/merge/cell.rs`) -/

/-- The accumulator: an optional held value plus the pending result
(`result = none` models `Ok(())`, `result = some e` a stored error). -/
structure MergeCell (α : Type) where
  value : Option α
  result : Option Error
deriving DecidableEq, Repr

/-- `MergeCell::empty()`. -/
def MergeCell.empty : MergeCell α := ⟨none, none⟩

/-- `MergeCell::new(value)`. -/
def MergeCell.new (v : α) : MergeCell α := ⟨some v, none⟩

/-- `MergeCell::merge(&mut self, other)`: an empty cell is filled; a filled
cell combines only while the pending result is still `Ok`, otherwise the
stored error is retained and `other` is dropped. -/
def MergeCell.feed (mf : α → α → Except Error α) (c : MergeCell α) (other : α) :
    MergeCell α :=
  match c.value with
  | none => ⟨some other, c.result⟩
  | some v =>
    match c.result with
    | some e => ⟨some v, some e⟩
    | none =>
      match mf v other with
      | .ok w => ⟨some w, none⟩
      | .error e => ⟨some v, some e⟩

/-- `MergeCell::try_finish()`: `none` iff the cell is empty, otherwise the
stored result. -/
def MergeCell.tryFinish (c : MergeCell α) : Option (Except Error α) :=
  match c.value with
  | none => none
  | some v =>
    match c.result with
    | some e => some (.error e)
    | none => some (.ok v)

/-! ## The `File` evaluator (`module-util/src/file/file.rs`) -/

/-- A parsed module: its import list plus its value
(`module-util/src/file/format.rs`). -/
structure Module (α : Type) where
  imports : List String
  value : α
deriving DecidableEq, Repr

/-- The evaluator state: the set of canonical paths already evaluated (as a
list, insertion at the front) and the accumulated value. -/
structure FileState (α : Type) where
  evaluated : List String
  value : Option α
deriving DecidableEq, Repr

/-- `File::new`'s state: nothing visited, no value. -/
def FileState.init : FileState α := ⟨[], none⟩

/-- Merging a freshly read module value into the accumulator: the first
module initialises it, later ones `merge_ref` into it. -/
def mergeInto (mf : α → α → Except Error α) :
    Option α → α → Except Error (Option α)
  | some x, v => (mf x v).map some
  | none, v => .ok (some v)

/-- Push the failing module's identifier onto the error of a result
(`_read(..).with_module(path)`); fuel exhaustion and success pass through. -/
def wrapModule (p : String) :
    Option (FileState α × Option Error) → Option (FileState α × Option Error)
  | some (s, some e) => some (s, some (e.pushModule p))
  | x => x

/-- The `try_for_each` loop over a module's imports: read each import in
declared order, short-circuiting on the first failure.  `f` is the
evaluator's `read` applied to the remaining fuel. -/
def goImports (f : FileState α → String → Option (FileState α × Option Error)) :
    FileState α → List String → Option (FileState α × Option Error)
  | s, [] => some (s, none)
  | s, q :: rest =>
    match f s q with
    | none => none
    | some (s', some e) => some (s', some e)
    | some (s', none) => goImports f s' rest

/-- `File::_read`, fuelled.  In source order: fail with `Cycle` if the path
was already evaluated; parse the file (`none` from `fs` models an I/O or
parse failure, surfaced as a `Custom` error); merge the module's value into
the accumulator; mark the path evaluated; then read the imports in declared
order, each one through the module-trace-annotating `read` wrapper.  The
outer `Option` is `none` exactly when the fuel ran out. -/
def fileReadAux (mf : α → α → Except Error α) (fs : String → Option (Module α)) :
    Nat → FileState α → String → Option (FileState α × Option Error)
  | 0, _, _ => none
  | fuel + 1, s, p =>
    if p ∈ s.evaluated then some (s, some Error.cycle)
    else
      match fs p with
      | none => some (s, some (Error.custom p))
      | some m =>
        match mergeInto mf s.value m.value with
        | .error e => some (s, some e)
        | .ok v =>
          goImports (fun s' q => wrapModule q (fileReadAux mf fs fuel s' q))
            ⟨p :: s.evaluated, v⟩ m.imports

/-- `File::read`: canonicalize (the identity here) and `_read`, annotating
any failure with this module's path. -/
def fileRead (mf : α → α → Except Error α) (fs : String → Option (Module α))
    (fuel : Nat) (s : FileState α) (p : String) :
    Option (FileState α × Option Error) :=
  wrapModule p (fileReadAux mf fs fuel s p)

/-! ## Import-graph reachability -/

/-- An import edge: `p`'s parsed module lists `q` among its imports. -/
def Edge (fs : String → Option (Module α)) (p q : String) : Prop :=
  ∃ m, fs p = some m ∧ q ∈ m.imports

/-- Reachability along import edges (reflexive-transitive). -/
inductive Reaches (fs : String → Option (Module α)) : String → String → Prop where
  | refl (p : String) : Reaches fs p p
  | step {p q r : String} : Edge fs p q → Reaches fs q r → Reaches fs p r

/-- A finite domain of paths closed under import edges: models the finite
file system on which the Rust evaluator runs. -/
def ClosedUnder (fs : String → Option (Module α)) (D : List String) : Prop :=
  ∀ p ∈ D, ∀ m, fs p = some m → ∀ q ∈ m.imports, q ∈ D

/-! ## Spec-side pre-order traversal

Modelled from the spec: the merge order of §4.6 — "a module's own fields are
merged *before* any of its imports' fields (pre-order), and imports are
processed left-to-right as declared", under the same visited-set guard.
`specPreorder` computes the sequence of module values in that order
(`some none` means the walk failed for a non-merge reason: a revisited path
or an unparsable file), and `mergeSeq` folds the merge over such a sequence.
The evaluator is proved to refine their composition. -/

/-- Walk a list of import roots left-to-right, concatenating their pre-order
value sequences and threading the visited set. -/
def goPreorder
    (f : List String → String → Option (Option (List String × List α))) :
    List String → List String → Option (Option (List String × List α))
  | ev, [] => some (some (ev, []))
  | ev, q :: rest =>
    match f ev q with
    | none => none
    | some none => some none
    | some (some (ev', vs)) =>
      match goPreorder f ev' rest with
      | none => none
      | some none => some none
      | some (some (ev'', vs')) => some (some (ev'', vs ++ vs'))

/-- The pre-order, depth-first, left-to-right sequence of module values
reachable from `p`, with the visited-set guard of the evaluator. -/
def specPreorder (fs : String → Option (Module α)) :
    Nat → List String → String → Option (Option (List String × List α))
  | 0, _, _ => none
  | fuel + 1, ev, p =>
    if p ∈ ev then some none
    else
      match fs p with
      | none => some none
      | some m =>
        match goPreorder (specPreorder fs fuel) (p :: ev) m.imports with
        | none => none
        | some none => some none
        | some (some (ev', vs)) => some (some (ev', m.value :: vs))

/-- Left fold of the accumulator-merge over a sequence of module values,
stopping at the first merge failure. -/
def mergeSeq (mf : α → α → Except Error α) :
    Option α → List α → Except Error (Option α)
  | v, [] => .ok v
  | v, x :: xs =>
    match mergeInto mf v x with
    | .error e => .error e
    | .ok w => mergeSeq mf w xs

/-! ## Concrete instances used by scenario conjuncts, counterexamples and
witnesses -/

/-- A three-file system for the `Last` scenario: the root `r` imports `b`
then `c`; `b` sets the `Last`-policy field to `"b"`, `c` sets it to
`"c"`. -/
def lastFs : String → Option (Module (Option (Last String))) := fun p =>
  if p = "r" then some ⟨["b", "c"], none⟩
  else if p = "b" then some ⟨[], some ⟨"b"⟩⟩
  else if p = "c" then some ⟨[], some ⟨"c"⟩⟩
  else none

/-- The merge of an `Option<Last<String>>` field. -/
def lastMf : Option (Last String) → Option (Last String) →
    Except Error (Option (Last String)) :=
  optionMergeRef Last.mergeRef

/-- A diamond: `r` imports `b` then `c`, and both import the shared `d`. -/
def diamondFs : String → Option (Module (List Nat)) := fun p =>
  if p = "r" then some ⟨["b", "c"], [0]⟩
  else if p = "b" then some ⟨["d"], [2]⟩
  else if p = "c" then some ⟨["d"], [3]⟩
  else if p = "d" then some ⟨[], [9]⟩
  else none

/-- A two-module import cycle `r → a → r` whose values are plain
(unmergeable) scalars. -/
def cycFs : String → Option (Module Int) := fun p =>
  if p = "r" then some ⟨["a"], 0⟩
  else if p = "a" then some ⟨["r"], 1⟩
  else none

/-- A file system where every module imports itself; its values are lists,
whose merge is total. -/
def selfFs : String → Option (Module (List Nat)) := fun p => some ⟨[p], [1]⟩

/-! ## Claim C1 -/

/-- **C1.** For every two `Overridable` values with distinct priorities the
merge succeeds, the result is exactly the operand with the numerically lower
priority (inner value and priority unchanged, the other operand discarded
wholesale), and both operand orders produce the same result. -/
theorem overridable_lower_priority_wins {α : Type} (a b : Overridable α)
    (h : a.priority ≠ b.priority) :
    ∃ w, a.mergeRef b = .ok w ∧ b.mergeRef a = .ok w ∧
      ((a.priority < b.priority ∧ w = a) ∨ (b.priority < a.priority ∧ w = b)) := by
  rcases lt_trichotomy a.priority b.priority with hlt | heq | hgt
  · refine ⟨a, ?_, ?_, Or.inl ⟨hlt, rfl⟩⟩
    · simp [Overridable.mergeRef, icmp, hlt]
    · simp [Overridable.mergeRef, icmp, not_lt.mpr hlt.le, hlt.ne']
  · exact absurd heq h
  · refine ⟨b, ?_, ?_, Or.inr ⟨hgt, rfl⟩⟩
    · simp [Overridable.mergeRef, icmp, not_lt.mpr hgt.le, hgt.ne']
    · simp [Overridable.mergeRef, icmp, hgt]

/-- Witness for C1 at a concrete input. -/
theorem overridable_lower_priority_wins_witness :
    ∃ w, Overridable.mergeRef ⟨(42 : Int), 10⟩ ⟨32, 9⟩ = .ok w ∧
      Overridable.mergeRef ⟨(32 : Int), 9⟩ ⟨42, 10⟩ = .ok w ∧
      (((10 : Int) < 9 ∧ w = ⟨42, 10⟩) ∨ ((9 : Int) < 10 ∧ w = ⟨32, 9⟩)) :=
  overridable_lower_priority_wins ⟨(42 : Int), 10⟩ ⟨32, 9⟩ (by decide)

/-! ## Claim C2 -/

/-- **C2.** Merging two `Overridable` values with equal priorities fails in
either operand order, with a `Collision`-kind error, for any inner
values. -/
theorem overridable_equal_priority_collides {α : Type} (a b : Overridable α)
    (h : a.priority = b.priority) :
    a.mergeRef b = .error Error.collision ∧
      b.mergeRef a = .error Error.collision ∧
      Error.collision.kind = ErrorKind.collision := by
  refine ⟨?_, ?_, rfl⟩ <;> simp [Overridable.mergeRef, icmp, h, lt_irrefl]

/-- Witness for C2 at a concrete input. -/
theorem overridable_equal_priority_collides_witness :
    Overridable.mergeRef ⟨(1 : Int), 10⟩ ⟨2, 10⟩ = .error Error.collision ∧
      Overridable.mergeRef ⟨(2 : Int), 10⟩ ⟨1, 10⟩ = .error Error.collision ∧
      Error.collision.kind = ErrorKind.collision :=
  overridable_equal_priority_collides ⟨(1 : Int), 10⟩ ⟨2, 10⟩ (by decide)

/-! ## Claim C7 -/

/-- **C7.** List merge is concatenation with `self`'s elements first, it
never fails, it is associative, and the empty list is a two-sided identity
element. -/
theorem vec_merge_concat_assoc_identity {α : Type} (a b c : List α) :
    vecMergeRef a b = .ok (a ++ b) ∧
      ((vecMergeRef a b).bind (fun x => vecMergeRef x c)
        = (vecMergeRef b c).bind (fun y => vecMergeRef a y)) ∧
      vecMergeRef a ([] : List α) = .ok a ∧
      vecMergeRef ([] : List α) a = .ok a := by
  refine ⟨rfl, ?_, by simp [vecMergeRef], by simp [vecMergeRef]⟩
  show Except.ok ((a ++ b) ++ c) = Except.ok (a ++ (b ++ c))
  rw [List.append_assoc]

/-! ## Claim C8 -/

/-- **C8.** For every mergeable type embedded here, the consuming `merge`
and the in-place `merge_ref` are observationally identical: they fail in the
same cases and produce the same value on success.  For the types relying on
the trait's default `merge` this is by construction; `NoMerge` and `()`
implement both explicitly and still agree. -/
theorem merge_consuming_eq_merge_ref (α β : Type) :
    (∀ a b : Overridable α, a.merge b = a.mergeRef b) ∧
      (∀ a b : First α, a.merge b = a.mergeRef b) ∧
      (∀ a b : Last α, a.merge b = a.mergeRef b) ∧
      (∀ a b : Lines, a.merge b = a.mergeRef b) ∧
      (∀ a b : NoMerge α, a.merge b = a.mergeRef b) ∧
      (∀ a b : Unit, unitMerge a b = unitMergeRef a b) ∧
      (∀ a b : List α, vecMerge a b = vecMergeRef a b) ∧
      (∀ (mf : α → α → Except Error α) (a b : Option α),
        optionMerge mf a b = optionMergeRef mf a b) ∧
      (∀ (mf : β → β → Except Error β) (a b : List (String × β)),
        mapMerge mf a b = mapMergeRef mf a b) ∧
      (∀ (mf : α → α → Except Error α) (a b : Ordered α),
        Ordered.merge mf a b = Ordered.mergeRef mf a b) ∧
      (∀ a b : Int, scalarMerge a b = scalarMergeRef a b) := by
  exact ⟨fun _ _ => rfl, fun _ _ => rfl, fun _ _ => rfl, fun _ _ => rfl,
    fun _ _ => rfl, fun _ _ => rfl, fun _ _ => rfl, fun _ _ _ => rfl,
    fun _ _ _ => rfl, fun _ _ _ => rfl, fun _ _ => rfl⟩

/-! ## Claim C9 -/

/-- Pushing a newline character is appending the one-character string. -/
theorem string_push_newline (s : String) : s.push '\n' = s ++ "\n" := by
  cases s
  rfl

/-- **C9.** `Lines` merge never fails and yields `a`'s text, then a newline
separator exactly when `a`'s text does not already end with one, then `b`'s
text. -/
theorem lines_merge_appends_with_newline_sep (a b : Lines) :
    a.mergeRef b =
      .ok ⟨(if a.content.endsWith "\n" then a.content
            else a.content ++ "\n") ++ b.content⟩ := by
  unfold Lines.mergeRef
  by_cases h : a.content.endsWith "\n"
  · simp [h]
  · simp [h, string_push_newline]

/-! ## Claim C6 -/

/-- Left fold of a merge over a list, stopping at the first failure: the
reference behaviour the accumulator is proved to implement. -/
def foldFirstErr (mf : α → α → Except Error α) : α → List α → Except Error α
  | v, [] => .ok v
  | v, x :: xs =>
    match mf v x with
    | .ok w => foldFirstErr mf w xs
    | .error e => .error e

/-- Once the cell holds an error, every further fed value is dropped and the
cell is unchanged. -/
theorem mergeCell_foldl_absorb (mf : α → α → Except Error α) (vs : List α)
    (v : α) (e : Error) :
    vs.foldl (MergeCell.feed mf) ⟨some v, some e⟩ = ⟨some v, some e⟩ := by
  induction vs with
  | nil => rfl
  | cons x xs ih => simpa [MergeCell.feed] using ih

/-- Feeding a list into a healthy, filled cell computes the first-error left
fold. -/
theorem mergeCell_foldl_run (mf : α → α → Except Error α) (vs : List α) (v : α) :
    (vs.foldl (MergeCell.feed mf) ⟨some v, none⟩).tryFinish
      = some (foldFirstErr mf v vs) := by
  induction vs generalizing v with
  | nil => rfl
  | cons x xs ih =>
    rw [List.foldl_cons]
    cases h : mf v x with
    | ok w =>
      have hstep : MergeCell.feed mf ⟨some v, none⟩ x = ⟨some w, none⟩ := by
        simp [MergeCell.feed, h]
      rw [hstep, ih w, foldFirstErr, h]
    | error e =>
      have hstep : MergeCell.feed mf ⟨some v, none⟩ x = ⟨some v, some e⟩ := by
        simp [MergeCell.feed, h]
      rw [hstep, mergeCell_foldl_absorb, foldFirstErr, h]
      rfl

/-- **C6.** The accumulator: the first fed value initialises the holder;
later values are combined only while no combination has failed; after the
first failure further values are dropped and the first error is retained;
finalising yields `none` iff nothing was fed, otherwise the held value or
the first error — so feeding the whole list computes exactly the
first-error left fold.  The concrete conjuncts run the spec's scenario
`[v1, v2-that-collides-with-v1, v3]`: the result is the collision error from
the `v2` combination even though `v3` alone would have merged fine into
`v1`, i.e. `v3` is never applied. -/
theorem merge_cell_first_error_wins :
    (∀ (α : Type) (mf : α → α → Except Error α),
      (∀ x : α, MergeCell.feed mf MergeCell.empty x = ⟨some x, none⟩) ∧
      (∀ (v x : α) (e : Error),
        MergeCell.feed mf ⟨some v, some e⟩ x = ⟨some v, some e⟩) ∧
      ((MergeCell.empty : MergeCell α).tryFinish = none) ∧
      (∀ vs : List α,
        (vs.foldl (MergeCell.feed mf) MergeCell.empty).tryFinish
          = match vs with
            | [] => none
            | v :: rest => some (foldFirstErr mf v rest))) ∧
    (([⟨1, 10⟩, ⟨2, 10⟩, ⟨3, 5⟩] : List (Overridable Int)).foldl
        (MergeCell.feed Overridable.mergeRef) MergeCell.empty).tryFinish
      = some (.error Error.collision) ∧
    Overridable.mergeRef ⟨(1 : Int), 10⟩ ⟨3, 5⟩ = .ok ⟨3, 5⟩ := by
  refine ⟨fun α mf => ⟨fun x => rfl, fun v x e => rfl, rfl, fun vs => ?_⟩,
    by decide, by decide⟩
  cases vs with
  | nil => rfl
  | cons v rest =>
    show (rest.foldl (MergeCell.feed mf) ⟨some v, none⟩).tryFinish = _
    exact mergeCell_foldl_run mf rest v

/-! ## Claim C5: association-list lemmas -/

/-- Lookup distributes over appending, preferring the left list. -/
theorem alookup_append (m n : List (String × β)) (x : String) :
    alookup (m ++ n) x
      = match alookup m x with
        | some v => some v
        | none => alookup n x := by
  induction m with
  | nil => simp [alookup]
  | cons kv rest ih =>
    obtain ⟨k, v⟩ := kv
    by_cases h : k = x <;> simp [alookup, h, ih]

/-- Lookup after inserting a fresh entry. -/
theorem alookup_ainsert (m : List (String × β)) (k x : String) (v : β) :
    alookup (ainsert m k v) x
      = match alookup m x with
        | some w => some w
        | none => if k = x then some v else none := by
  unfold ainsert
  rw [alookup_append]
  cases alookup m x <;> simp [alookup]

/-- Unfolding equation for `aerase` on a cons. -/
theorem aerase_cons (k' : String) (v : β) (rest : List (String × β)) (k : String) :
    aerase ((k', v) :: rest) k
      = if k' = k then aerase rest k else (k', v) :: aerase rest k := rfl

/-- Unfolding equation for `alookup` on a cons. -/
theorem alookup_cons (k' : String) (v : β) (rest : List (String × β)) (x : String) :
    alookup ((k', v) :: rest) x = if k' = x then some v else alookup rest x := rfl

/-- Unfolding equation for `akeys` on a cons. -/
theorem akeys_cons (k' : String) (v : β) (rest : List (String × β)) :
    akeys ((k', v) :: rest) = k' :: akeys rest := rfl

/-- Lookup after erasing a key. -/
theorem alookup_aerase (m : List (String × β)) (k x : String) :
    alookup (aerase m k) x = if k = x then none else alookup m x := by
  induction m with
  | nil => simp [aerase, alookup]
  | cons kv rest ih =>
    obtain ⟨k', v⟩ := kv
    rw [aerase_cons, alookup_cons]
    by_cases h : k' = k
    · rw [if_pos h, ih]
      by_cases hx : k = x
      · simp [hx]
      · have hx' : ¬ k' = x := fun hh => hx (h ▸ hh)
        simp [hx, hx']
    · rw [if_neg h, alookup_cons]
      by_cases hx : k' = x
      · have hkx : ¬ k = x := fun hh => h (hx.trans hh.symm)
        simp [hx, hkx]
      · simp [hx, ih]

/-- A lookup is `none` exactly when the key is absent. -/
theorem alookup_eq_none_iff (m : List (String × β)) (x : String) :
    alookup m x = none ↔ x ∉ akeys m := by
  induction m with
  | nil => simp [alookup, akeys]
  | cons kv rest ih =>
    obtain ⟨k, v⟩ := kv
    rw [alookup_cons, akeys_cons]
    by_cases h : k = x
    · simp [h]
    · have hsym : ¬ x = k := fun hh => h hh.symm
      simp [h, hsym, ih]

/-- Erasure only removes keys. -/
theorem mem_akeys_of_mem_aerase (m : List (String × β)) (k x : String)
    (h : x ∈ akeys (aerase m k)) : x ∈ akeys m := by
  induction m with
  | nil => exact h
  | cons kv rest ih =>
    obtain ⟨k', v⟩ := kv
    rw [aerase_cons] at h
    rw [akeys_cons, List.mem_cons]
    by_cases hk : k' = k
    · rw [if_pos hk] at h
      exact Or.inr (ih h)
    · rw [if_neg hk, akeys_cons, List.mem_cons] at h
      rcases h with h | h
      · exact Or.inl h
      · exact Or.inr (ih h)

/-- The erased key is gone. -/
theorem not_mem_akeys_aerase (m : List (String × β)) (k : String) :
    k ∉ akeys (aerase m k) := by
  induction m with
  | nil => simp [aerase, akeys]
  | cons kv rest ih =>
    obtain ⟨k', v⟩ := kv
    rw [aerase_cons]
    by_cases hk : k' = k
    · rw [if_pos hk]
      exact ih
    · rw [if_neg hk, akeys_cons, List.mem_cons]
      rintro (h | h)
      · exact hk h.symm
      · exact ih h

/-- Erasing preserves key distinctness. -/
theorem akeys_aerase_nodup (m : List (String × β)) (k : String)
    (h : (akeys m).Nodup) : (akeys (aerase m k)).Nodup := by
  induction m with
  | nil => simp [aerase, akeys]
  | cons kv rest ih =>
    obtain ⟨k', v⟩ := kv
    rw [akeys_cons, List.nodup_cons] at h
    rw [aerase_cons]
    by_cases hk : k' = k
    · rw [if_pos hk]
      exact ih h.2
    · rw [if_neg hk, akeys_cons, List.nodup_cons]
      exact ⟨fun hh => h.1 (mem_akeys_of_mem_aerase rest k k' hh), ih h.2⟩

/-- Keys after inserting a fresh key. -/
theorem akeys_ainsert (m : List (String × β)) (k : String) (v : β) :
    akeys (ainsert m k v) = akeys m ++ [k] := by
  simp [ainsert, akeys]

/-- Inserting a fresh key preserves key distinctness. -/
theorem akeys_ainsert_nodup (m : List (String × β)) (k : String) (v : β)
    (hm : (akeys m).Nodup) (hk : k ∉ akeys m) :
    (akeys (ainsert m k v)).Nodup := by
  rw [akeys_ainsert]
  simp [List.nodup_append, hm, hk]

/-- Inserting a fresh entry leaves other keys' lookups unchanged. -/
theorem alookup_ainsert_ne (m : List (String × β)) (k x : String) (v : β)
    (h : ¬ k = x) : alookup (ainsert m k v) x = alookup m x := by
  rw [alookup_ainsert]
  cases alookup m x <;> simp [h]

/-- Unfolding equation for `mapMergeRef` on a cons. -/
theorem mapMergeRef_cons (mf : β → β → Except Error β) (m : List (String × β))
    (k : String) (b : β) (rest : List (String × β)) :
    mapMergeRef mf m ((k, b) :: rest)
      = match alookup m k with
        | none => mapMergeRef mf (ainsert m k b) rest
        | some a =>
          match withValue (mf a b) (quoteKey k) with
          | .error e => .error e
          | .ok c => mapMergeRef mf (ainsert (aerase m k) k c) rest := rfl

/-- Success characterisation of the map merge: each key of the result is
looked up in the two operands and combined key-wise. -/
theorem mapMergeRef_ok_alookup (mf : β → β → Except Error β)
    (other : List (String × β)) :
    ∀ (m r : List (String × β)), (akeys m).Nodup → (akeys other).Nodup →
      mapMergeRef mf m other = .ok r → ∀ x,
      (match alookup m x, alookup other x with
       | some a, some b => ∃ c, mf a b = .ok c ∧ alookup r x = some c
       | some a, none => alookup r x = some a
       | none, some b => alookup r x = some b
       | none, none => alookup r x = none) := by
  induction other with
  | nil =>
    intro m r hm ho h x
    have hr : m = r := Except.ok.inj h
    subst hr
    cases hl : alookup m x <;> simp [alookup, hl]
  | cons kb rest ih =>
    obtain ⟨k, b⟩ := kb
    intro m r hm ho h x
    rw [akeys_cons, List.nodup_cons] at ho
    rw [mapMergeRef_cons] at h
    cases hlk : alookup m k with
    | none =>
      rw [hlk] at h
      have hkm : k ∉ akeys m := (alookup_eq_none_iff m k).mp hlk
      have hm' := akeys_ainsert_nodup m k b hm hkm
      have hchar := ih (ainsert m k b) r hm' ho.2 h
      by_cases hx : k = x
      · subst hx
        have h1 : alookup (ainsert m k b) k = some b := by
          rw [alookup_ainsert, hlk]
          simp
        have h2 : alookup rest k = none := (alookup_eq_none_iff rest k).mpr ho.1
        have := hchar k
        rw [h1, h2] at this
        rw [hlk, alookup_cons, if_pos rfl]
        exact this
      · have := hchar x
        rw [alookup_ainsert_ne m k x b hx] at this
        rw [alookup_cons, if_neg hx]
        exact this
    | some a =>
      rw [hlk] at h
      dsimp only at h
      cases hab : mf a b with
      | error e0 =>
        rw [hab] at h
        exact absurd h (by simp [withValue])
      | ok c =>
        rw [hab] at h
        have h' : mapMergeRef mf (ainsert (aerase m k) k c) rest = .ok r := by
          simpa [withValue] using h
        have hm' := akeys_ainsert_nodup (aerase m k) k c
          (akeys_aerase_nodup m k hm) (not_mem_akeys_aerase m k)
        have hchar := ih (ainsert (aerase m k) k c) r hm' ho.2 h'
        by_cases hx : k = x
        · subst hx
          have h1 : alookup (ainsert (aerase m k) k c) k = some c := by
            rw [alookup_ainsert, alookup_aerase, if_pos rfl]
            simp
          have h2 : alookup rest k = none := (alookup_eq_none_iff rest k).mpr ho.1
          have := hchar k
          rw [h1, h2] at this
          rw [hlk, alookup_cons, if_pos rfl]
          exact ⟨c, hab, this⟩
        · have heq : alookup (ainsert (aerase m k) k c) x = alookup m x := by
            rw [alookup_ainsert_ne _ k x c hx, alookup_aerase, if_neg hx]
          have := hchar x
          rw [heq] at this
          rw [alookup_cons, if_neg hx]
          exact this

/-- Failure characterisation of the map merge: a failure is the failure of
the value merge of some shared key, with the quoted key name pushed onto the
error's value trace. -/
theorem mapMergeRef_error_alookup (mf : β → β → Except Error β)
    (other : List (String × β)) :
    ∀ (m : List (String × β)) (e : Error), (akeys m).Nodup →
      (akeys other).Nodup → mapMergeRef mf m other = .error e →
      ∃ k a b e0, alookup m k = some a ∧ alookup other k = some b ∧
        mf a b = .error e0 ∧ e = e0.pushValue (quoteKey k) := by
  induction other with
  | nil =>
    intro m e hm ho h
    exact absurd h (by simp [mapMergeRef])
  | cons kb rest ih =>
    obtain ⟨k, b⟩ := kb
    intro m e hm ho h
    rw [akeys_cons, List.nodup_cons] at ho
    rw [mapMergeRef_cons] at h
    cases hlk : alookup m k with
    | none =>
      rw [hlk] at h
      have hkm : k ∉ akeys m := (alookup_eq_none_iff m k).mp hlk
      have hm' := akeys_ainsert_nodup m k b hm hkm
      obtain ⟨k', a, b', e0, h1, h2, h3, h4⟩ := ih (ainsert m k b) e hm' ho.2 h
      have hne : ¬ k = k' := by
        intro hh
        subst hh
        rw [(alookup_eq_none_iff rest k).mpr ho.1] at h2
        exact Option.noConfusion h2
      rw [alookup_ainsert_ne m k k' b hne] at h1
      exact ⟨k', a, b', e0, h1, by rw [alookup_cons, if_neg hne]; exact h2, h3, h4⟩
    | some a =>
      rw [hlk] at h
      dsimp only at h
      cases hab : mf a b with
      | error e0 =>
        rw [hab] at h
        have he : e = e0.pushValue (quoteKey k) := by
          have h2 : (Except.error (e0.pushValue (quoteKey k)) :
              Except Error (List (String × β))) = .error e := h
          exact (Except.error.inj h2).symm
        exact ⟨k, a, b, e0, hlk, by rw [alookup_cons, if_pos rfl], hab, he⟩
      | ok c =>
        rw [hab] at h
        have h' : mapMergeRef mf (ainsert (aerase m k) k c) rest = .error e := by
          simpa [withValue] using h
        have hm' := akeys_ainsert_nodup (aerase m k) k c
          (akeys_aerase_nodup m k hm) (not_mem_akeys_aerase m k)
        obtain ⟨k', a', b', e0, h1, h2, h3, h4⟩ :=
          ih (ainsert (aerase m k) k c) e hm' ho.2 h'
        have hne : ¬ k = k' := by
          intro hh
          subst hh
          rw [(alookup_eq_none_iff rest k).mpr ho.1] at h2
          exact Option.noConfusion h2
        rw [alookup_ainsert_ne _ k k' c hne, alookup_aerase, if_neg hne] at h1
        exact ⟨k', a', b', e0, h1, by rw [alookup_cons, if_neg hne]; exact h2, h3, h4⟩

/-- **C5 (amended).** Merging two unique-key mappings succeeds exactly when
every shared key's values merge; on success the key set is the union, keys
on one side pass through unchanged and shared keys hold the recursive merge
of their two values; on failure the error is a failing shared key's error
with the quoted key name pushed onto the front of the value trace —
preceding the components recorded by the failed inner merge, hence the
innermost component exactly when the inner error carries no value-trace
components. -/
theorem map_merge_keywise_union (mf : β → β → Except Error β)
    (m₁ m₂ : List (String × β))
    (h₁ : (akeys m₁).Nodup) (h₂ : (akeys m₂).Nodup) :
    (∀ r, mapMergeRef mf m₁ m₂ = .ok r →
      (∀ x, x ∈ akeys r ↔ x ∈ akeys m₁ ∨ x ∈ akeys m₂) ∧
      ∀ x, (match alookup m₁ x, alookup m₂ x with
            | some a, some b => ∃ c, mf a b = .ok c ∧ alookup r x = some c
            | some a, none => alookup r x = some a
            | none, some b => alookup r x = some b
            | none, none => alookup r x = none)) ∧
    (∀ e, mapMergeRef mf m₁ m₂ = .error e →
      ∃ k a b e0, alookup m₁ k = some a ∧ alookup m₂ k = some b ∧
        mf a b = .error e0 ∧ e = e0.pushValue (quoteKey k) ∧
        (e0.value = [] → e.value = [quoteKey k])) := by
  constructor
  · intro r hr
    have hchar := mapMergeRef_ok_alookup mf m₂ m₁ r h₁ h₂ hr
    refine ⟨fun x => ?_, hchar⟩
    have hx := hchar x
    constructor
    · intro hmem
      by_contra hno
      push_neg at hno
      have hn₁ : alookup m₁ x = none := (alookup_eq_none_iff m₁ x).mpr hno.1
      have hn₂ : alookup m₂ x = none := (alookup_eq_none_iff m₂ x).mpr hno.2
      rw [hn₁, hn₂] at hx
      exact ((alookup_eq_none_iff r x).mp hx) hmem
    · intro hmem
      by_contra hno
      have hn : alookup r x = none := (alookup_eq_none_iff r x).mpr hno
      cases hl₁ : alookup m₁ x with
      | some a =>
        rw [hl₁] at hx
        cases hl₂ : alookup m₂ x with
        | some b =>
          rw [hl₂] at hx
          obtain ⟨c, _, hc⟩ := hx
          rw [hn] at hc
          exact Option.noConfusion hc
        | none =>
          rw [hl₂] at hx
          rw [hn] at hx
          exact Option.noConfusion hx
      | none =>
        cases hl₂ : alookup m₂ x with
        | some b =>
          rw [hl₁, hl₂] at hx
          rw [hn] at hx
          exact Option.noConfusion hx
        | none =>
          rcases hmem with hmem | hmem
          · exact ((alookup_eq_none_iff m₁ x).mp hl₁) hmem
          · exact ((alookup_eq_none_iff m₂ x).mp hl₂) hmem
  · intro e he
    obtain ⟨k, a, b, e0, h1, h2, h3, h4⟩ :=
      mapMergeRef_error_alookup mf m₂ m₁ e h₁ h₂ he
    refine ⟨k, a, b, e0, h1, h2, h3, h4, fun hv => ?_⟩
    rw [h4]
    unfold Error.pushValue
    rw [hv]

/-- Counterexample to C5 as stated: merging nested maps that collide at
outer key `a`, inner key `b`, produces an error whose *innermost*
value-trace component is the inner key `"b"`, not the shared key `"a"` that
this merge pushed — the pushed key precedes the inner components instead of
being innermost. -/
theorem map_merge_key_not_innermost :
    mapMergeRef (mapMergeRef scalarMergeRef)
        [("a", [("b", (0 : Int))])] [("a", [("b", (1 : Int))])]
      = .error ⟨.collision, [], [quoteKey "a", quoteKey "b"]⟩ ∧
    (⟨.collision, [], [quoteKey "a", quoteKey "b"]⟩ : Error).value.getLast?
      = some (quoteKey "b") ∧
    quoteKey "b" ≠ quoteKey "a" := by
  refine ⟨by decide, by decide, by decide⟩

/-- Witness for C5 (amended) at a concrete input: a flat shared-key
collision, where the pushed key is the innermost (only) component. -/
theorem map_merge_keywise_union_witness :
    ∃ k a b e0, alookup [("k", (0 : Int))] k = some a ∧
      alookup [("k", (1 : Int))] k = some b ∧
      scalarMergeRef a b = .error e0 ∧
      (⟨.collision, [], [quoteKey "k"]⟩ : Error) = e0.pushValue (quoteKey k) ∧
      (e0.value = [] →
        (⟨.collision, [], [quoteKey "k"]⟩ : Error).value = [quoteKey k]) :=
  (map_merge_keywise_union scalarMergeRef [("k", (0 : Int))] [("k", (1 : Int))]
    (by decide) (by decide)).2 ⟨.collision, [], [quoteKey "k"]⟩ (by decide)

/-! ## Claim C10 -/

/-- **C10.** Reading a canonical path the evaluator has already evaluated
fails immediately with a `Cycle` error (annotated with that path), whatever
the rest of the file system looks like — so in the acyclic diamond
(`r` imports `b` then `c`, both import the shared `d`) the second encounter
of `d` aborts the whole evaluation with `Cycle`, with `d`'s value `[9]`
merged into the accumulator exactly once (`[0, 2, 9, 3]`); shared imports
are not supported. -/
theorem file_revisit_fails_cycle :
    (∀ (α : Type) (mf : α → α → Except Error α)
       (fs : String → Option (Module α)) (fuel : Nat) (s : FileState α)
       (p : String), p ∈ s.evaluated →
       fileRead mf fs (fuel + 1) s p
         = some (s, some (Error.cycle.pushModule p))) ∧
    fileRead vecMergeRef diamondFs 4 FileState.init "r"
      = some (⟨["c", "d", "b", "r"], some [0, 2, 9, 3]⟩,
          some ⟨.cycle, ["r", "c", "d"], []⟩) := by
  refine ⟨fun α mf fs fuel s p hp => ?_, by decide⟩
  rw [fileRead, fileReadAux, if_pos hp]
  rfl

/-- Witness for C10's universal part at a concrete input. -/
theorem file_revisit_fails_cycle_witness :
    fileRead scalarMergeRef cycFs (0 + 1) ⟨["r"], none⟩ "r"
      = some (⟨["r"], none⟩, some (Error.cycle.pushModule "r")) :=
  file_revisit_fails_cycle.1 Int scalarMergeRef cycFs 0 ⟨["r"], none⟩ "r"
    (by decide)

/-! ## Claim C4 -/

/-- Success of the module-annotating wrapper is success of the body. -/
theorem wrapModule_ok_iff {p : String} {r : Option (FileState α × Option Error)}
    {s' : FileState α} :
    wrapModule p r = some (s', none) ↔ r = some (s', none) := by
  cases r with
  | none => simp [wrapModule]
  | some x =>
    obtain ⟨t, o⟩ := x
    cases o <;> simp [wrapModule]

/-- Unfolding equation for `goImports` on a cons. -/
theorem goImports_cons
    (f : FileState α → String → Option (FileState α × Option Error))
    (s : FileState α) (q : String) (rest : List String) :
    goImports f s (q :: rest)
      = match f s q with
        | none => none
        | some (s', some e) => some (s', some e)
        | some (s', none) => goImports f s' rest := rfl

/-- Unfolding equation for `goPreorder` on a cons. -/
theorem goPreorder_cons
    (f : List String → String → Option (Option (List String × List α)))
    (ev : List String) (q : String) (rest : List String) :
    goPreorder f ev (q :: rest)
      = match f ev q with
        | none => none
        | some none => some none
        | some (some (ev', vs)) =>
          match goPreorder f ev' rest with
          | none => none
          | some none => some none
          | some (some (ev'', vs')) => some (some (ev'', vs ++ vs')) := rfl

/-- Unfolding equation for `mergeSeq` on a cons. -/
theorem mergeSeq_cons (mf : α → α → Except Error α) (v : Option α) (x : α)
    (xs : List α) :
    mergeSeq mf v (x :: xs)
      = match mergeInto mf v x with
        | .error e => .error e
        | .ok w => mergeSeq mf w xs := rfl

/-- `mergeSeq` splits over list concatenation. -/
theorem mergeSeq_append (mf : α → α → Except Error α) (xs ys : List α) :
    ∀ v, mergeSeq mf v (xs ++ ys)
      = match mergeSeq mf v xs with
        | .error e => .error e
        | .ok w => mergeSeq mf w ys := by
  induction xs with
  | nil =>
    intro v
    simp [mergeSeq]
  | cons x xs ih =>
    intro v
    rw [List.cons_append, mergeSeq_cons, mergeSeq_cons]
    cases h : mergeInto mf v x with
    | error e => simp [h]
    | ok w => simp [h, ih w]

/-- The import loop refines the left-to-right walk of the pre-order
traversal, given that single reads at the next fuel level do. -/
theorem goImports_refines_goPreorder (mf : α → α → Except Error α)
    (fs : String → Option (Module α)) (fuel : Nat)
    (ih : ∀ (s : FileState α) (p : String) (s' : FileState α),
      fileRead mf fs fuel s p = some (s', none) →
      ∃ vs, specPreorder fs fuel s.evaluated p = some (some (s'.evaluated, vs)) ∧
        mergeSeq mf s.value vs = .ok s'.value) :
    ∀ (l : List String) (t s' : FileState α),
      goImports (fun u q => wrapModule q (fileReadAux mf fs fuel u q)) t l
        = some (s', none) →
      ∃ vs, goPreorder (specPreorder fs fuel) t.evaluated l
          = some (some (s'.evaluated, vs)) ∧
        mergeSeq mf t.value vs = .ok s'.value := by
  intro l
  induction l with
  | nil =>
    intro t s' h
    rw [goImports] at h
    have ht : t = s' := by
      have := Option.some.inj h
      exact congrArg Prod.fst this
    subst ht
    exact ⟨[], rfl, rfl⟩
  | cons q rest ihl =>
    intro t s' h
    rw [goImports_cons] at h
    cases hr : fileReadAux mf fs fuel t q with
    | none =>
      rw [hr] at h
      exact absurd h (by simp [wrapModule])
    | some x =>
      obtain ⟨t₁, o⟩ := x
      cases o with
      | some e =>
        rw [hr] at h
        simp only [wrapModule] at h
        exact absurd (congrArg Prod.snd (Option.some.inj h)) (by simp)
      | none =>
        rw [hr] at h
        simp only [wrapModule] at h
        obtain ⟨vs₁, hpre₁, hms₁⟩ :=
          ih t q t₁ (wrapModule_ok_iff.mpr hr)
        obtain ⟨vs₂, hpre₂, hms₂⟩ := ihl t₁ s' h
        refine ⟨vs₁ ++ vs₂, ?_, ?_⟩
        · simp only [goPreorder_cons, hpre₁, hpre₂]
        · rw [mergeSeq_append, hms₁]
          exact hms₂

/-- A successful evaluation merges exactly the pre-order, depth-first,
left-to-right sequence of module values. -/
theorem fileRead_refines_specPreorder (mf : α → α → Except Error α)
    (fs : String → Option (Module α)) :
    ∀ (fuel : Nat) (s : FileState α) (p : String) (s' : FileState α),
      fileRead mf fs fuel s p = some (s', none) →
      ∃ vs, specPreorder fs fuel s.evaluated p = some (some (s'.evaluated, vs)) ∧
        mergeSeq mf s.value vs = .ok s'.value := by
  intro fuel
  induction fuel with
  | zero =>
    intro s p s' h
    exact absurd h (by simp [fileRead, fileReadAux, wrapModule])
  | succ fuel ih =>
    intro s p s' h
    have h' : fileReadAux mf fs (fuel + 1) s p = some (s', none) :=
      wrapModule_ok_iff.mp h
    rw [fileReadAux] at h'
    by_cases hp : p ∈ s.evaluated
    · rw [if_pos hp] at h'
      exact absurd (congrArg Prod.snd (Option.some.inj h')) (by simp)
    · rw [if_neg hp] at h'
      cases hfs : fs p with
      | none =>
        rw [hfs] at h'
        exact absurd (congrArg Prod.snd (Option.some.inj h')) (by simp)
      | some m =>
        rw [hfs] at h'
        dsimp only at h'
        cases hmi : mergeInto mf s.value m.value with
        | error e =>
          rw [hmi] at h'
          exact absurd (congrArg Prod.snd (Option.some.inj h')) (by simp)
        | ok v =>
          rw [hmi] at h'
          obtain ⟨vs₀, hpre, hms⟩ :=
            goImports_refines_goPreorder mf fs fuel ih m.imports
              ⟨p :: s.evaluated, v⟩ s' h'
          refine ⟨m.value :: vs₀, ?_, ?_⟩
          · rw [specPreorder, if_neg hp, hfs]
            dsimp only
            rw [hpre]
          · rw [mergeSeq_cons, hmi]
            exact hms

/-- **C4.** The file evaluator merges module values in pre-order,
depth-first, left-to-right: every successful evaluation equals the
first-error merge fold over the `specPreorder` value sequence, in which a
module's own value precedes all of its imports' values and imports appear
in declared order.  The concrete conjuncts run the spec's scenario: root
`r` imports `b` then `c`, both defining a `Last`-policy field, and the
final value is `c`'s (`y = "c"`), with the traversal sequence being
`[r's value, b's value, c's value]`. -/
theorem file_eval_preorder_merge :
    (∀ (α : Type) (mf : α → α → Except Error α)
       (fs : String → Option (Module α)) (fuel : Nat) (s : FileState α)
       (p : String) (s' : FileState α),
       fileRead mf fs fuel s p = some (s', none) →
       ∃ vs, specPreorder fs fuel s.evaluated p
           = some (some (s'.evaluated, vs)) ∧
         mergeSeq mf s.value vs = .ok s'.value) ∧
    fileRead lastMf lastFs 3 FileState.init "r"
      = some (⟨["c", "b", "r"], some (some ⟨"c"⟩)⟩, none) ∧
    specPreorder lastFs 3 [] "r"
      = some (some (["c", "b", "r"], [none, some ⟨"b"⟩, some ⟨"c"⟩])) := by
  exact ⟨fun α mf fs => fileRead_refines_specPreorder mf fs, by decide, by decide⟩

/-- Witness for C4's universal part at the `Last` scenario. -/
theorem file_eval_preorder_merge_witness :
    ∃ vs, specPreorder lastFs 3 [] "r"
        = some (some (["c", "b", "r"], vs)) ∧
      mergeSeq lastMf none vs = .ok (some (some ⟨"c"⟩)) :=
  file_eval_preorder_merge.1 (Option (Last String)) lastMf lastFs 3 FileState.init "r"
    ⟨["c", "b", "r"], some (some ⟨"c"⟩)⟩ (by decide)

/-! ## Claim C3 -/

/-- Full decomposition of a returned wrapper result: the body returned the
same state, and the error (if any) gained this module's identifier. -/
theorem wrapModule_some_full {p : String}
    {r : Option (FileState α × Option Error)} {s' : FileState α}
    {o : Option Error} (h : wrapModule p r = some (s', o)) :
    ∃ o₀, r = some (s', o₀) ∧ o = o₀.map (fun e => e.pushModule p) := by
  cases r with
  | none => exact absurd h (by simp [wrapModule])
  | some x =>
    obtain ⟨t, o₁⟩ := x
    cases o₁ with
    | none =>
      have h2 := Option.some.inj h
      have ht : t = s' := congrArg Prod.fst h2
      have ho : o = none := (congrArg Prod.snd h2).symm
      subst ht
      exact ⟨none, rfl, by rw [ho]; rfl⟩
    | some e₀ =>
      have h2 := Option.some.inj h
      have ht : t = s' := congrArg Prod.fst h2
      have ho : o = some (e₀.pushModule p) := (congrArg Prod.snd h2).symm
      subst ht
      exact ⟨some e₀, rfl, by rw [ho]; rfl⟩

/-- The wrapper preserves definedness. -/
theorem wrapModule_isSome {p : String}
    {r : Option (FileState α × Option Error)} (h : r.isSome) :
    (wrapModule p r).isSome := by
  cases r with
  | none => simp at h
  | some x =>
    obtain ⟨t, o⟩ := x
    cases o <;> simp [wrapModule]

/-- The import loop only grows the visited set, given that single reads
do. -/
theorem goImports_subset
    (f : FileState α → String → Option (FileState α × Option Error))
    (hf : ∀ (s : FileState α) q s' o, f s q = some (s', o) →
      ∀ x, x ∈ s.evaluated → x ∈ s'.evaluated) :
    ∀ (l : List String) (s s' : FileState α) (o : Option Error),
      goImports f s l = some (s', o) →
      ∀ x, x ∈ s.evaluated → x ∈ s'.evaluated := by
  intro l
  induction l with
  | nil =>
    intro s s' o h
    have hs : s = s' := congrArg Prod.fst (Option.some.inj h)
    subst hs
    exact fun x hx => hx
  | cons q rest ih =>
    intro s s' o h
    rw [goImports_cons] at h
    cases hq : f s q with
    | none =>
      rw [hq] at h
      exact absurd h (by simp)
    | some x =>
      obtain ⟨t, o₁⟩ := x
      cases o₁ with
      | some e =>
        rw [hq] at h
        have ht : t = s' := congrArg Prod.fst (Option.some.inj h)
        subst ht
        exact hf s q t (some e) hq
      | none =>
        rw [hq] at h
        intro x hx
        exact ih t s' o h x (hf s q t none hq x hx)

/-- A single read only grows the visited set. -/
theorem fileReadAux_subset (mf : α → α → Except Error α)
    (fs : String → Option (Module α)) :
    ∀ (fuel : Nat) (s : FileState α) (p : String) (s' : FileState α)
      (o : Option Error), fileReadAux mf fs fuel s p = some (s', o) →
      ∀ x, x ∈ s.evaluated → x ∈ s'.evaluated := by
  intro fuel
  induction fuel with
  | zero =>
    intro s p s' o h
    exact absurd h (by simp [fileReadAux])
  | succ fuel ih =>
    intro s p s' o h
    rw [fileReadAux] at h
    by_cases hp : p ∈ s.evaluated
    · rw [if_pos hp] at h
      have hs : s = s' := congrArg Prod.fst (Option.some.inj h)
      subst hs
      exact fun x hx => hx
    · rw [if_neg hp] at h
      cases hfs : fs p with
      | none =>
        rw [hfs] at h
        have hs : s = s' := congrArg Prod.fst (Option.some.inj h)
        subst hs
        exact fun x hx => hx
      | some m =>
        rw [hfs] at h
        dsimp only at h
        cases hmi : mergeInto mf s.value m.value with
        | error e =>
          rw [hmi] at h
          have hs : s = s' := congrArg Prod.fst (Option.some.inj h)
          subst hs
          exact fun x hx => hx
        | ok v =>
          rw [hmi] at h
          have hf : ∀ (t : FileState α) q t' o',
              wrapModule q (fileReadAux mf fs fuel t q) = some (t', o') →
              ∀ x, x ∈ t.evaluated → x ∈ t'.evaluated := by
            intro t q t' o' hq x hx
            obtain ⟨o₀, hr, -⟩ := wrapModule_some_full hq
            exact ih t q t' o₀ hr x hx
          have hsub := goImports_subset _ hf m.imports ⟨p :: s.evaluated, v⟩ s' o h
          intro x hx
          exact hsub x (List.mem_cons_of_mem p hx)

/-- Number of domain paths not yet visited: the termination measure of the
Rust recursion. -/
def unvisited (D ev : List String) : Nat :=
  (D.filter (fun x => x ∉ ev)).length

/-- Filtering with a stronger predicate yields no more elements. -/
theorem length_filter_le (p q : String → Bool)
    (h : ∀ x, p x = true → q x = true) :
    ∀ l : List String, (l.filter p).length ≤ (l.filter q).length := by
  intro l
  induction l with
  | nil => exact Nat.le_refl 0
  | cons a rest ih =>
    rw [List.filter_cons, List.filter_cons]
    cases hp : p a with
    | true =>
      rw [if_pos rfl, h a hp, if_pos rfl]
      simp only [List.length_cons]
      exact Nat.succ_le_succ ih
    | false =>
      rw [if_neg (by simp)]
      cases hq : q a with
      | true =>
        rw [if_pos rfl]
        exact Nat.le_trans ih (by simp only [List.length_cons]; exact Nat.le_succ _)
      | false =>
        rw [if_neg (by simp)]
        exact ih

/-- Growing the visited set cannot increase the measure. -/
theorem unvisited_le_of_subset (D ev ev' : List String)
    (h : ∀ x, x ∈ ev → x ∈ ev') : unvisited D ev' ≤ unvisited D ev := by
  unfold unvisited
  refine length_filter_le _ _ (fun x hx => ?_) D
  rw [decide_eq_true_iff] at hx ⊢
  exact fun hmem => hx (h x hmem)

/-- Visiting a fresh domain path strictly decreases the measure. -/
theorem unvisited_cons_lt (D ev : List String) (p : String)
    (hD : p ∈ D) (hev : p ∉ ev) : unvisited D (p :: ev) < unvisited D ev := by
  induction D with
  | nil => cases hD
  | cons d rest ih =>
    unfold unvisited
    rw [List.filter_cons, List.filter_cons]
    by_cases hd : d = p
    · subst hd
      rw [if_neg (by simp), if_pos (by simp [hev])]
      simp only [List.length_cons]
      exact Nat.lt_succ_of_le (unvisited_le_of_subset rest ev (d :: ev)
        (fun x hx => List.mem_cons_of_mem d hx))
    · have hD' : p ∈ rest := by
        rcases List.mem_cons.mp hD with hh | hh
        · exact absurd hh.symm hd
        · exact hh
      by_cases hdev : d ∈ ev
      · rw [if_neg (by simp [List.mem_cons, hdev]),
          if_neg (by simp [hdev])]
        exact ih hD'
      · rw [if_pos (by simp [List.mem_cons, hd, hdev]),
          if_pos (by simp [hdev])]
        simp only [List.length_cons]
        exact Nat.succ_lt_succ (ih hD')

/-- The import loop terminates while fuel exceeds the measure, given that
single reads do. -/
theorem goImports_isSome
    (f : FileState α → String → Option (FileState α × Option Error))
    (D : List String) (n : Nat)
    (hval : ∀ (s : FileState α) q, q ∈ D → unvisited D s.evaluated < n →
      (f s q).isSome)
    (hmono : ∀ (s : FileState α) q s' o, f s q = some (s', o) →
      ∀ x, x ∈ s.evaluated → x ∈ s'.evaluated) :
    ∀ (l : List String), (∀ q ∈ l, q ∈ D) → ∀ (s : FileState α),
      unvisited D s.evaluated < n → (goImports f s l).isSome := by
  intro l
  induction l with
  | nil =>
    intro _ s _
    simp [goImports]
  | cons q rest ih =>
    intro hl s hs
    rw [goImports_cons]
    have hq := hval s q (hl q (List.mem_cons_self q rest)) hs
    cases hr : f s q with
    | none =>
      rw [hr] at hq
      simp at hq
    | some x =>
      obtain ⟨t, o⟩ := x
      cases o with
      | some e => simp
      | none =>
        have hsub := hmono s q t none hr
        have hle := unvisited_le_of_subset D s.evaluated t.evaluated hsub
        exact ih (fun q' hq' => hl q' (List.mem_cons_of_mem q hq')) t
          (Nat.lt_of_le_of_lt hle hs)

/-- Fuel exceeding the measure suffices for the evaluator to return, on a
finite domain closed under imports. -/
theorem fileReadAux_isSome (mf : α → α → Except Error α)
    (fs : String → Option (Module α)) (D : List String)
    (hD : ClosedUnder fs D) :
    ∀ (fuel : Nat) (s : FileState α) (p : String), p ∈ D →
      unvisited D s.evaluated < fuel → (fileReadAux mf fs fuel s p).isSome := by
  intro fuel
  induction fuel with
  | zero =>
    intro s p hp h
    exact absurd h (Nat.not_lt_zero _)
  | succ fuel ih =>
    intro s p hp h
    rw [fileReadAux]
    by_cases hps : p ∈ s.evaluated
    · rw [if_pos hps]
      simp
    · rw [if_neg hps]
      cases hfs : fs p with
      | none => simp
      | some m =>
        dsimp only
        cases hmi : mergeInto mf s.value m.value with
        | error e => simp
        | ok v =>
          have himp : ∀ q ∈ m.imports, q ∈ D := hD p hp m hfs
          have hlt : unvisited D (p :: s.evaluated) < fuel := by
            have h2 := unvisited_cons_lt D s.evaluated p hp hps
            omega
          exact goImports_isSome _ D fuel
            (fun t q hq hu => wrapModule_isSome (ih t q hq hu))
            (fun t q t' o' hq x hx => by
              obtain ⟨o₀, hr, -⟩ := wrapModule_some_full hq
              exact fileReadAux_subset mf fs fuel t q t' o₀ hr x hx)
            m.imports himp ⟨p :: s.evaluated, v⟩ hlt

/-- A fully successful import loop read every listed import successfully at
some intermediate state. -/
theorem goImports_ok_each
    (f : FileState α → String → Option (FileState α × Option Error)) :
    ∀ (l : List String) (s s' : FileState α),
      goImports f s l = some (s', none) →
      ∀ q ∈ l, ∃ t t', f t q = some (t', none) := by
  intro l
  induction l with
  | nil =>
    intro s s' h q hq
    cases hq
  | cons q0 rest ih =>
    intro s s' h q hq
    rw [goImports_cons] at h
    cases hr : f s q0 with
    | none =>
      rw [hr] at h
      exact absurd h (by simp)
    | some x =>
      obtain ⟨t, o⟩ := x
      cases o with
      | some e =>
        rw [hr] at h
        exact absurd (congrArg Prod.snd (Option.some.inj h)) (by simp)
      | none =>
        rw [hr] at h
        rcases List.mem_cons.mp hq with hq' | hq'
        · subst hq'
          exact ⟨s, t, hr⟩
        · exact ih t s' h q hq'

/-- A failing import loop owes its error to some listed import. -/
theorem goImports_error_each
    (f : FileState α → String → Option (FileState α × Option Error)) :
    ∀ (l : List String) (s s' : FileState α) (e : Error),
      goImports f s l = some (s', some e) →
      ∃ q, q ∈ l ∧ ∃ t t', f t q = some (t', some e) := by
  intro l
  induction l with
  | nil =>
    intro s s' e h
    exact absurd (congrArg Prod.snd (Option.some.inj h)) (by simp)
  | cons q0 rest ih =>
    intro s s' e h
    rw [goImports_cons] at h
    cases hr : f s q0 with
    | none =>
      rw [hr] at h
      exact absurd h (by simp)
    | some x =>
      obtain ⟨t, o⟩ := x
      cases o with
      | some e₁ =>
        rw [hr] at h
        have he : e₁ = e :=
          Option.some.inj (congrArg Prod.snd (Option.some.inj h))
        subst he
        exact ⟨q0, List.mem_cons_self q0 rest, s, t, hr⟩
      | none =>
        rw [hr] at h
        obtain ⟨q, hq, t₁, t₂, hf⟩ := ih t s' e h
        exact ⟨q, List.mem_cons_of_mem q0 hq, t₁, t₂, hf⟩

/-- With a total merge, the accumulator step always succeeds. -/
theorem mergeInto_total (mf : α → α → Except Error α)
    (hmf : ∀ a b, ∃ c, mf a b = .ok c) (v : Option α) (x : α) :
    ∃ w, mergeInto mf v x = .ok w := by
  cases v with
  | none => exact ⟨some x, rfl⟩
  | some a =>
    obtain ⟨c, hc⟩ := hmf a x
    exact ⟨some c, by simp [mergeInto, hc, Except.map]⟩

/-- With a total merge and parsable reachable files, reading a path from
which a cycle is reachable never succeeds, from any starting state. -/
theorem fileReadAux_no_ok (mf : α → α → Except Error α)
    (fs : String → Option (Module α)) (hmf : ∀ a b, ∃ c, mf a b = .ok c) :
    ∀ (fuel : Nat) (s : FileState α) (p : String),
      (∀ x, Reaches fs p x → (fs x).isSome) →
      (∃ c, Reaches fs p c ∧ ∃ q, Edge fs c q ∧ Reaches fs q c) →
      ∀ s', fileReadAux mf fs fuel s p ≠ some (s', none) := by
  intro fuel
  induction fuel with
  | zero =>
    intro s p _ _ s' h
    exact absurd h (by simp [fileReadAux])
  | succ fuel ih =>
    intro s p hfsp hcyc s' h
    rw [fileReadAux] at h
    by_cases hps : p ∈ s.evaluated
    · rw [if_pos hps] at h
      exact absurd (congrArg Prod.snd (Option.some.inj h)) (by simp)
    · rw [if_neg hps] at h
      have hsome := hfsp p (Reaches.refl p)
      cases hfs : fs p with
      | none =>
        rw [hfs] at hsome
        simp at hsome
      | some m =>
        rw [hfs] at h
        dsimp only at h
        obtain ⟨v, hmi⟩ := mergeInto_total mf hmf s.value m.value
        rw [hmi] at h
        obtain ⟨c, hpc, q, hedge, hqc⟩ := hcyc
        cases hpc with
        | refl =>
          obtain ⟨m', hm', hqm'⟩ := hedge
          rw [hfs] at hm'
          have hmm : m' = m := (Option.some.inj hm').symm
          subst hmm
          obtain ⟨t, t', hf⟩ :=
            goImports_ok_each _ m'.imports ⟨p :: s.evaluated, v⟩ s' h q hqm'
          exact ih t q
            (fun x hx => hfsp x (Reaches.step ⟨m', hfs, hqm'⟩ hx))
            ⟨p, hqc, q, ⟨m', hfs, hqm'⟩, hqc⟩ t'
            (wrapModule_ok_iff.mp hf)
        | step hpw hwc =>
          rename_i w
          obtain ⟨m', hm', hwm'⟩ := hpw
          rw [hfs] at hm'
          have hmm : m' = m := (Option.some.inj hm').symm
          subst hmm
          obtain ⟨t, t', hf⟩ :=
            goImports_ok_each _ m'.imports ⟨p :: s.evaluated, v⟩ s' h w hwm'
          exact ih t w
            (fun x hx => hfsp x (Reaches.step ⟨m', hfs, hwm'⟩ hx))
            ⟨c, hwc, q, hedge, hqc⟩ t'
            (wrapModule_ok_iff.mp hf)

/-- With a total merge and parsable reachable files, any error the
evaluator returns has kind `Cycle`. -/
theorem fileReadAux_error_cycle (mf : α → α → Except Error α)
    (fs : String → Option (Module α)) (hmf : ∀ a b, ∃ c, mf a b = .ok c) :
    ∀ (fuel : Nat) (s : FileState α) (p : String) (s' : FileState α)
      (e : Error), (∀ x, Reaches fs p x → (fs x).isSome) →
      fileReadAux mf fs fuel s p = some (s', some e) →
      e.kind = ErrorKind.cycle := by
  intro fuel
  induction fuel with
  | zero =>
    intro s p s' e _ h
    exact absurd h (by simp [fileReadAux])
  | succ fuel ih =>
    intro s p s' e hfsp h
    rw [fileReadAux] at h
    by_cases hps : p ∈ s.evaluated
    · rw [if_pos hps] at h
      have he : Error.cycle = e :=
        Option.some.inj (congrArg Prod.snd (Option.some.inj h))
      rw [← he]
      rfl
    · rw [if_neg hps] at h
      have hsome := hfsp p (Reaches.refl p)
      cases hfs : fs p with
      | none =>
        rw [hfs] at hsome
        simp at hsome
      | some m =>
        rw [hfs] at h
        dsimp only at h
        obtain ⟨v, hmi⟩ := mergeInto_total mf hmf s.value m.value
        rw [hmi] at h
        obtain ⟨q, hq, t, t', hf⟩ :=
          goImports_error_each _ m.imports ⟨p :: s.evaluated, v⟩ s' e h
        obtain ⟨o₀, hr, ho⟩ := wrapModule_some_full hf
        cases o₀ with
        | none => exact absurd ho (by simp)
        | some e₀ =>
          have he : e = e₀.pushModule q := Option.some.inj ho
          have hk := ih t q t' e₀
            (fun x hx => hfsp x (Reaches.step ⟨m, hfs, hq⟩ hx)) hr
          rw [he]
          exact hk

/-- **C3 (amended).** For every root from which an import cycle is
reachable, if every reachable file parses and every value merge performed
succeeds (a total merge function), then evaluation from a fresh evaluator
terminates (given the finite import-closed file system the evaluator runs
on), fails, and the returned error's kind is `Cycle`; the canonical path is
marked visited strictly before the evaluator recurses into the module's
imports (visible in `fileReadAux`, which reads the imports from the state
`⟨p :: s.evaluated, v⟩`), so the cycle is detected at the next read of the
same canonical path. -/
theorem file_eval_cycle_detected (α : Type) (mf : α → α → Except Error α)
    (fs : String → Option (Module α)) (root : String)
    (hmf : ∀ a b, ∃ c, mf a b = .ok c)
    (hfs : ∀ x, Reaches fs root x → (fs x).isSome)
    (hcyc : ∃ c, Reaches fs root c ∧ ∃ q, Edge fs c q ∧ Reaches fs q c)
    (D : List String) (hroot : root ∈ D) (hD : ClosedUnder fs D) :
    (∃ fuel s' e, fileRead mf fs fuel FileState.init root = some (s', some e)) ∧
    (∀ (fuel : Nat) (s' : FileState α) (o : Option Error),
      fileRead mf fs fuel FileState.init root = some (s', o) →
      ∃ e, o = some e ∧ e.kind = ErrorKind.cycle) := by
  have part2 : ∀ (fuel : Nat) (s' : FileState α) (o : Option Error),
      fileRead mf fs fuel FileState.init root = some (s', o) →
      ∃ e, o = some e ∧ e.kind = ErrorKind.cycle := by
    intro fuel s' o h
    obtain ⟨o₀, hr, ho⟩ := wrapModule_some_full h
    cases o₀ with
    | none =>
      exact absurd hr
        (fileReadAux_no_ok mf fs hmf fuel FileState.init root hfs hcyc s')
    | some e₀ =>
      refine ⟨e₀.pushModule root, by rw [ho]; rfl, ?_⟩
      exact fileReadAux_error_cycle mf fs hmf fuel FileState.init root s' e₀
        hfs hr
  refine ⟨?_, part2⟩
  have hsome := fileReadAux_isSome mf fs D hD (unvisited D [] + 1)
    FileState.init root hroot (Nat.lt_succ_self _)
  obtain ⟨y, hy⟩ := Option.isSome_iff_exists.mp hsome
  obtain ⟨s', o₀⟩ := y
  cases o₀ with
  | none =>
    exact absurd hy
      (fileReadAux_no_ok mf fs hmf _ FileState.init root hfs hcyc s')
  | some e₀ =>
    refine ⟨unvisited D [] + 1, s', e₀.pushModule root, ?_⟩
    rw [fileRead, hy]
    rfl

/-- Counterexample to C3 as stated: the import graph `r → a → r` is a cycle
of length 2, yet evaluating `r` with plain unmergeable scalar values fails
while merging `a`'s value — before `r` is ever re-read — so the returned
error's kind is `Collision`, not `Cycle`. -/
theorem file_eval_cycle_claim_false :
    (Edge cycFs "r" "a" ∧ Edge cycFs "a" "r") ∧
    fileRead scalarMergeRef cycFs 3 FileState.init "r"
      = some (⟨["r"], some 0⟩, some ⟨.collision, ["r", "a"], []⟩) ∧
    ErrorKind.collision ≠ ErrorKind.cycle := by
  refine ⟨⟨⟨⟨["a"], 0⟩, by decide, by decide⟩,
    ⟨⟨["r"], 1⟩, by decide, by decide⟩⟩, by decide, by decide⟩

/-- Witness for C3 (amended) at a concrete input: a self-importing module
with list-valued (total-merge) contents. -/
theorem file_eval_cycle_detected_witness :
    (∃ fuel s' e, fileRead vecMergeRef selfFs fuel FileState.init "s"
        = some (s', some e)) ∧
    (∀ (fuel : Nat) (s' : FileState (List Nat)) (o : Option Error),
      fileRead vecMergeRef selfFs fuel FileState.init "s" = some (s', o) →
      ∃ e, o = some e ∧ e.kind = ErrorKind.cycle) :=
  file_eval_cycle_detected (List Nat) vecMergeRef selfFs "s"
    (fun a b => ⟨a ++ b, rfl⟩) (fun x _ => rfl)
    ⟨"s", Reaches.refl "s", "s", ⟨⟨["s"], [1]⟩, rfl, by decide⟩,
      Reaches.refl "s"⟩
    ["s"] (by decide)
    (by
      intro p hp m hm q hq
      have hps : p = "s" := by
        rcases List.mem_cons.mp hp with h | h
        · exact h
        · cases h
      subst hps
      have hmm : m = ⟨["s"], [1]⟩ := (Option.some.inj hm).symm
      rw [hmm] at hq
      exact hq)

end ModuleRs
